import Mathlib

/-!
# Verification of the histocartography preprocessing pipeline specification

This file gives a shallow embedding, in Lean 4, of the parts of the
`histocartography` repository that its natural-language specification talks
about, and proves (or refutes) the specified properties.

The repository's own source tree only ships the helper module
`experiments/histo-seg/utils.py` together with the test suite; the
`PipelineRunner`, `GaussianTissueMask` and the graph builders are exercised by
the tests but their implementation is not part of the tree.  Those components
are therefore modelled from the specification text (each such definition's doc
comment starts with `Modelled from the spec:`); the functions of `utils.py`
(`fast_mode`, `read_image`, `get_next_version_number`,
`SuperpixelVisualizer.show_random_patch`) are embedded directly from the
source.
-/

/-! ## Pipeline runner with per-name caching

Modelled from the spec: "PipelineRunner: executes an ordered list of named
stages over an input, short-circuiting stages whose cached output already
exists for that name; stage order fixed by configuration."  Artifacts are
abstracted as natural numbers, a stage is a pure function on artifacts, and
the cache is an association list keyed by sample name and stage index. -/

/-- An artifact produced by a pipeline stage (tissue mask, graph, ...). -/
abbrev Artifact := Nat

/-- A pipeline stage: per the spec, a pure function of its declared input. -/
abbrev Stage := Artifact → Artifact

/-- The artifact cache: entries `(name, stage index, artifact)`, most recent
first.  Models the filesystem tree keyed by sample name. -/
abbrev Cache := List (String × Nat × Artifact)

/-- Look up the cached artifact for stage `i` of sample `name`. -/
def lookupCache (c : Cache) (name : String) (i : Nat) : Option Artifact :=
  match c with
  | [] => none
  | (n, j, a) :: rest =>
      if n = name ∧ j = i then some a else lookupCache rest name i

/-- Result of a pipeline run: the final artifact, the cache after the run,
and the indices of the stages that were actually recomputed. -/
structure RunResult where
  out : Artifact
  cache : Cache
  computed : List Nat

/-- Modelled from the spec: execute the stages in their configured order
starting at stage index `i`, short-circuiting every stage whose cached output
already exists for `name`; a recomputed stage's artifact is saved to the
cache. -/
def runFrom (stages : List Stage) (c : Cache) (name : String) (i : Nat)
    (input : Artifact) : RunResult :=
  match stages with
  | [] => ⟨input, c, []⟩
  | s :: rest =>
      match lookupCache c name i with
      | some a => runFrom rest c name (i + 1) a
      | none =>
          let a := s input
          let r := runFrom rest ((name, i, a) :: c) name (i + 1) a
          ⟨r.out, r.cache, i :: r.computed⟩

/-- Modelled from the spec: `PipelineRunner.run` for sample `name` on `input`
with the configured `stages` and the current cache `c`. -/
def PipelineRunner.run (stages : List Stage) (c : Cache) (name : String)
    (input : Artifact) : RunResult :=
  runFrom stages c name 0 input

/-- The chain of intermediate artifacts a full recomputation produces:
entry `j` is the output of stage `j`. -/
def chainOuts (stages : List Stage) (input : Artifact) : List Artifact :=
  match stages with
  | [] => []
  | s :: rest => s input :: chainOuts rest (s input)

/-- Decidable coherence of a cache with a full recomputation on `input`:
every cached entry for `name` at a stage index below the stage count equals
the artifact the recomputation produces there. -/
def coherentCache (stages : List Stage) (c : Cache) (name : String)
    (input : Artifact) : Bool :=
  (List.range stages.length).all fun j =>
    match lookupCache c name j with
    | none => true
    | some a => decide ((chainOuts stages input).get? j = some a)

/-- Unfolding equation: running an empty stage list. -/
theorem runFrom_nil (c : Cache) (name : String) (i input : Nat) :
    runFrom [] c name i input = ⟨input, c, []⟩ := rfl

/-- Unfolding equation: the head stage has a cached artifact, so it is
short-circuited. -/
theorem runFrom_cons_hit (s : Stage) (rest : List Stage) (c : Cache)
    (name : String) (i input : Nat) (a : Artifact)
    (h : lookupCache c name i = some a) :
    runFrom (s :: rest) c name i input = runFrom rest c name (i + 1) a := by
  simp only [runFrom, h]

/-- Unfolding equation: the head stage has no cached artifact, so it is
recomputed and its output saved. -/
theorem runFrom_cons_miss (s : Stage) (rest : List Stage) (c : Cache)
    (name : String) (i input : Nat)
    (h : lookupCache c name i = none) :
    runFrom (s :: rest) c name i input =
      ⟨(runFrom rest ((name, i, s input) :: c) name (i + 1) (s input)).out,
        (runFrom rest ((name, i, s input) :: c) name (i + 1) (s input)).cache,
        i :: (runFrom rest ((name, i, s input) :: c) name (i + 1)
          (s input)).computed⟩ := by
  simp only [runFrom, h]

/-- Prepending a cache entry for a different stage index does not change a
lookup. -/
theorem lookupCache_cons_ne (c : Cache) (name : String) (i j : Nat)
    (a : Artifact) (h : i ≠ j) :
    lookupCache ((name, i, a) :: c) name j = lookupCache c name j := by
  simp [lookupCache, h]

/-- A run never changes cache entries at stage indices below its start
index. -/
theorem lookup_runFrom_lt (stages : List Stage) :
    ∀ (c : Cache) (name : String) (i input j : Nat), j < i →
      lookupCache (runFrom stages c name i input).cache name j =
        lookupCache c name j := by
  induction stages with
  | nil => intro c name i input j _; rfl
  | cons s rest ih =>
      intro c name i input j hj
      cases hc : lookupCache c name i with
      | some a =>
          rw [runFrom_cons_hit s rest c name i input a hc]
          exact ih c name (i + 1) a j (Nat.lt_succ_of_lt hj)
      | none =>
          rw [runFrom_cons_miss s rest c name i input hc]
          have h1 : lookupCache (runFrom rest ((name, i, s input) :: c) name
              (i + 1) (s input)).cache name j =
              lookupCache ((name, i, s input) :: c) name j :=
            ih ((name, i, s input) :: c) name (i + 1) (s input) j
              (Nat.lt_succ_of_lt hj)
          have h2 : lookupCache ((name, i, s input) :: c) name j =
              lookupCache c name j :=
            lookupCache_cons_ne c name i j (s input) (Nat.ne_of_gt hj)
          exact h1.trans h2

/-- Replaying a run on the cache it produced returns the same final artifact,
leaves the cache unchanged and recomputes nothing. -/
theorem runFrom_replay (stages : List Stage) :
    ∀ (c : Cache) (name : String) (i input : Nat),
      runFrom stages (runFrom stages c name i input).cache name i input =
        ⟨(runFrom stages c name i input).out,
          (runFrom stages c name i input).cache, []⟩ := by
  induction stages with
  | nil => intro c name i input; rfl
  | cons s rest ih =>
      intro c name i input
      cases hc : lookupCache c name i with
      | some a =>
          rw [runFrom_cons_hit s rest c name i input a hc]
          have hkeep : lookupCache (runFrom rest c name (i + 1) a).cache
              name i = some a := by
            rw [lookup_runFrom_lt rest c name (i + 1) a i (Nat.lt_succ_self i)]
            exact hc
          rw [runFrom_cons_hit s rest (runFrom rest c name (i + 1) a).cache
            name i input a hkeep]
          exact ih c name (i + 1) a
      | none =>
          rw [runFrom_cons_miss s rest c name i input hc]
          have hkeep : lookupCache
              (runFrom rest ((name, i, s input) :: c) name (i + 1)
                (s input)).cache name i = some (s input) := by
            rw [lookup_runFrom_lt rest ((name, i, s input) :: c) name (i + 1)
              (s input) i (Nat.lt_succ_self i)]
            simp [lookupCache]
          rw [runFrom_cons_hit s rest
            (runFrom rest ((name, i, s input) :: c) name (i + 1)
              (s input)).cache name i input (s input) hkeep]
          exact ih ((name, i, s input) :: c) name (i + 1) (s input)

/-- On a cache coherent with a full recomputation, the run produces exactly
the fully recomputed final artifact. -/
theorem runFrom_coherent_out (stages : List Stage) :
    ∀ (c : Cache) (name : String) (i : Nat) (input : Artifact),
      (∀ j a, j < stages.length → lookupCache c name (i + j) = some a →
        (chainOuts stages input).get? j = some a) →
      (runFrom stages c name i input).out =
        stages.foldl (fun acc s => s acc) input := by
  induction stages with
  | nil => intro c name i input _; rfl
  | cons s rest ih =>
      intro c name i input H
      cases hc : lookupCache c name i with
      | some a =>
          have ha : (chainOuts (s :: rest) input).get? 0 = some a := by
            apply H 0 a (Nat.succ_pos _)
            simpa using hc
          have ha' : a = s input := by
            simp [chainOuts] at ha
            exact ha.symm
          rw [runFrom_cons_hit s rest c name i input a hc, ha']
          rw [List.foldl_cons]
          apply ih c name (i + 1) (s input)
          intro j b hj hlook
          have hidx : i + 1 + j = i + (j + 1) := by omega
          rw [hidx] at hlook
          have := H (j + 1) b (Nat.succ_lt_succ hj) hlook
          simpa [chainOuts] using this
      | none =>
          rw [runFrom_cons_miss s rest c name i input hc]
          dsimp only
          rw [List.foldl_cons]
          apply ih ((name, i, s input) :: c) name (i + 1) (s input)
          intro j b hj hlook
          have hne : i ≠ i + 1 + j := by omega
          rw [lookupCache_cons_ne c name i (i + 1 + j) (s input) hne] at hlook
          have hidx : i + 1 + j = i + (j + 1) := by omega
          rw [hidx] at hlook
          have := H (j + 1) b (Nat.succ_lt_succ hj) hlook
          simpa [chainOuts] using this

/-- Every stage index the run recomputes had no cached artifact. -/
theorem computed_not_cached (stages : List Stage) :
    ∀ (c : Cache) (name : String) (i : Nat) (input : Artifact) (j : Nat),
      j ∈ (runFrom stages c name i input).computed →
      lookupCache c name j = none := by
  induction stages with
  | nil =>
      intro c name i input j h
      simp [runFrom_nil] at h
  | cons s rest ih =>
      intro c name i input j h
      cases hc : lookupCache c name i with
      | some a =>
          rw [runFrom_cons_hit s rest c name i input a hc] at h
          exact ih c name (i + 1) a j h
      | none =>
          rw [runFrom_cons_miss s rest c name i input hc] at h
          dsimp only at h
          rcases List.mem_cons.mp h with h1 | h2
          · rw [h1]
            exact hc
          · have hnone := ih ((name, i, s input) :: c) name (i + 1)
              (s input) j h2
            by_cases hij : i = j
            · exfalso
              rw [hij] at hnone
              simp [lookupCache] at hnone
            · rwa [lookupCache_cons_ne c name i j (s input) hij] at hnone

/-- C2: re-running `PipelineRunner.run` with the same name and the same input
returns the very artifact of the first run, leaves the cache byte-for-byte
unchanged and recomputes no stage: the runner is idempotent on the cache. -/
theorem pipeline_rerun_idempotent (stages : List Stage) (c : Cache)
    (name : String) (input : Artifact) :
    PipelineRunner.run stages (PipelineRunner.run stages c name input).cache
      name input =
      ⟨(PipelineRunner.run stages c name input).out,
        (PipelineRunner.run stages c name input).cache, []⟩ :=
  runFrom_replay stages c name 0 input

/-- C7: once a run has populated the cache for `name`, a later run under the
same name returns the old cached output whatever the new input is: the cache
is keyed by name alone and staleness is never invalidated. -/
theorem stale_cache_returns_old_output (s : Stage) (rest : List Stage)
    (c : Cache) (name : String) (input newInput : Artifact) :
    (PipelineRunner.run (s :: rest)
      (PipelineRunner.run (s :: rest) c name input).cache name newInput).out =
      (PipelineRunner.run (s :: rest) c name input).out := by
  unfold PipelineRunner.run
  cases hc : lookupCache c name 0 with
  | some a =>
      rw [runFrom_cons_hit s rest c name 0 input a hc]
      have hkeep : lookupCache (runFrom rest c name 1 a).cache name 0 =
          some a := by
        rw [lookup_runFrom_lt rest c name 1 a 0 Nat.one_pos]
        exact hc
      rw [runFrom_cons_hit s rest (runFrom rest c name 1 a).cache name 0
        newInput a hkeep]
      rw [runFrom_replay rest c name 1 a]
  | none =>
      rw [runFrom_cons_miss s rest c name 0 input hc]
      dsimp only
      have hkeep : lookupCache
          (runFrom rest ((name, 0, s input) :: c) name 1 (s input)).cache
          name 0 = some (s input) := by
        rw [lookup_runFrom_lt rest ((name, 0, s input) :: c) name 1
          (s input) 0 Nat.one_pos]
        simp [lookupCache]
      rw [runFrom_cons_hit s rest
        (runFrom rest ((name, 0, s input) :: c) name 1 (s input)).cache
        name 0 newInput (s input) hkeep]
      rw [runFrom_replay rest ((name, 0, s input) :: c) name 1 (s input)]

/-- C5: `PipelineRunner.run` applies the configured stages in their fixed
order — on a cache whose existing entries agree with recomputation, the run's
final artifact is exactly the in-order fold of the stages over the input —
and every stage with an existing cached artifact is skipped, never
recomputed. -/
theorem run_matches_recompute_and_skips (stages : List Stage) (c : Cache)
    (name : String) (input : Artifact)
    (h : coherentCache stages c name input = true) :
    (PipelineRunner.run stages c name input).out =
      stages.foldl (fun acc s => s acc) input ∧
    ∀ j, lookupCache c name j ≠ none →
      j ∉ (PipelineRunner.run stages c name input).computed := by
  constructor
  · apply runFrom_coherent_out stages c name 0 input
    intro j a hj hlook
    rw [Nat.zero_add] at hlook
    have hall := (List.all_eq_true.mp h) j (List.mem_range.mpr hj)
    rw [hlook] at hall
    simpa using hall
  · intro j hj hmem
    exact hj (computed_not_cached stages c name 0 input j hmem)

/-- Witness for C5 on a concrete pipeline of two stages with a coherent
cached artifact for stage 0. -/
theorem run_matches_recompute_and_skips_witness :
    (PipelineRunner.run [fun n => n + 1, fun n => 2 * n]
      [("img", 0, 4)] "img" 3).out = 8 :=
  (run_matches_recompute_and_skips [fun n => n + 1, fun n => 2 * n]
    [("img", 0, 4)] "img" 3 (by decide)).1

/-! ## `fast_mode` from `experiments/histo-seg/utils.py` -/

/-- A 3-dimensional integer array (`np.ndarray` of shape
`dim0 × dim1 × dim2`); entries outside the shape are irrelevant. -/
structure Arr3 where
  dim0 : Nat
  dim1 : Nat
  dim2 : Nat
  data : Nat → Nat → Nat → Nat

/-- A 2-dimensional integer array of shape `dim0 × dim1`. -/
structure Arr2 where
  dim0 : Nat
  dim1 : Nat
  data : Nat → Nat → Nat

/-- The entry at `(v, j, l)` of the `output_array` accumulated by
`fast_mode`, i.e. `(input_array == v).sum(axis=0)` at position `(j, l)`:
the number of slices `i < dim0` with `data i j l = v`. -/
def countEq (a : Arr3) (v j l : Nat) : Nat :=
  ((List.range a.dim0).filter (fun i => a.data i j l == v)).length

/-- `np.argmax` over the values `0, ..., nv - 1` of `f`: the smallest index
attaining the maximum (numpy returns the first occurrence of the maximum). -/
def argmaxRange (f : Nat → Nat) : Nat → Nat
  | 0 => 0
  | nv + 1 =>
      if f nv > f (argmaxRange f nv) then nv else argmaxRange f nv

/-- Embedding of `utils.fast_mode` (axis = 0): builds the per-value count
array of shape `(nr_values, dim1, dim2)` and takes `np.argmax` over axis 0.
`np.argmax` raises `ValueError` when the reduced axis has length 0, i.e.
when `nr_values = 0`; this is modelled as `none`. -/
def fast_mode (input_array : Arr3) (nr_values : Nat) : Option Arr2 :=
  if nr_values = 0 then none
  else
    some ⟨input_array.dim1, input_array.dim2,
      fun j l => argmaxRange (fun v => countEq input_array v j l) nr_values⟩

/-- `argmaxRange` of a nonempty range lies inside the range. -/
theorem argmaxRange_lt (f : Nat → Nat) :
    ∀ nv, 1 ≤ nv → argmaxRange f nv < nv := by
  intro nv
  induction nv with
  | zero => intro h; exact absurd h (by decide)
  | succ n ih =>
      intro _
      simp only [argmaxRange]
      by_cases hgt : f n > f (argmaxRange f n)
      · rw [if_pos hgt]
        exact Nat.lt_succ_self n
      · rw [if_neg hgt]
        cases n with
        | zero => simp [argmaxRange]
        | succ m => exact Nat.lt_succ_of_lt (ih (Nat.succ_le_succ (Nat.zero_le m)))

/-- `argmaxRange` attains the maximum of `f` on the range. -/
theorem argmaxRange_le (f : Nat → Nat) :
    ∀ nv v, v < nv → f v ≤ f (argmaxRange f nv) := by
  intro nv
  induction nv with
  | zero => intro v hv; exact absurd hv (Nat.not_lt_zero v)
  | succ n ih =>
      intro v hv
      simp only [argmaxRange]
      by_cases hgt : f n > f (argmaxRange f n)
      · rw [if_pos hgt]
        rcases Nat.lt_succ_iff_lt_or_eq.mp hv with h | h
        · exact le_trans (ih v h) (Nat.le_of_lt hgt)
        · rw [h]
      · rw [if_neg hgt]
        rcases Nat.lt_succ_iff_lt_or_eq.mp hv with h | h
        · exact ih v h
        · rw [h]
          exact Nat.le_of_not_lt hgt

/-- `argmaxRange` returns the first maximum: every smaller index has a
strictly smaller value. -/
theorem argmaxRange_first (f : Nat → Nat) :
    ∀ nv v, v < argmaxRange f nv → f v < f (argmaxRange f nv) := by
  intro nv
  induction nv with
  | zero => intro v hv; exact absurd hv (Nat.not_lt_zero v)
  | succ n ih =>
      intro v hv
      simp only [argmaxRange] at hv ⊢
      by_cases hgt : f n > f (argmaxRange f n)
      · rw [if_pos hgt]
        rw [if_pos hgt] at hv
        exact Nat.lt_of_le_of_lt (argmaxRange_le f n v hv) hgt
      · rw [if_neg hgt]
        rw [if_neg hgt] at hv
        exact ih v hv

/-- C8 counterexample: with `nr_values = 0` (so that every one of the — zero —
entries of a `0 × 1 × 1` input vacuously lies in `{0, ..., nr_values - 1}`),
`fast_mode` does not return an array at all: `np.argmax` raises `ValueError`
on the empty axis. -/
theorem fast_mode_zero_values_raises :
    fast_mode ⟨0, 1, 1, fun _ _ _ => 0⟩ 0 = none := rfl

/-- C8 (amended with `1 ≤ nr_values`): for every 3-dimensional integer array
whose entries lie in `{0, ..., nr_values - 1}`, `fast_mode` with axis 0
returns a 2-dimensional array of the input's trailing two dimensions in which
each entry is a value occurring most often along axis 0 at that position,
ties broken in favor of the smallest value, and lies in
`{0, ..., nr_values - 1}`. -/
theorem fast_mode_is_mode (a : Arr3) (nr_values : Nat)
    (hnv : 1 ≤ nr_values)
    (_hrange : ∀ i j l, i < a.dim0 → j < a.dim1 → l < a.dim2 →
      a.data i j l < nr_values) :
    ∃ r : Arr2, fast_mode a nr_values = some r ∧
      r.dim0 = a.dim1 ∧ r.dim1 = a.dim2 ∧
      ∀ j l,
        r.data j l < nr_values ∧
        (∀ v, v < nr_values → countEq a v j l ≤ countEq a (r.data j l) j l) ∧
        (∀ v, v < r.data j l → countEq a v j l < countEq a (r.data j l) j l) := by
  refine ⟨⟨a.dim1, a.dim2,
    fun j l => argmaxRange (fun v => countEq a v j l) nr_values⟩, ?_, rfl, rfl, ?_⟩
  · unfold fast_mode
    rw [if_neg (Nat.pos_iff_ne_zero.mp hnv)]
  · intro j l
    refine ⟨argmaxRange_lt _ nr_values hnv, ?_, ?_⟩
    · intro v hv
      exact argmaxRange_le (fun v => countEq a v j l) nr_values v hv
    · intro v hv
      exact argmaxRange_first (fun v => countEq a v j l) nr_values v hv

/-- Witness for the amended C8 on a concrete `2 × 1 × 2` array with values
in `{0, 1}`. -/
theorem fast_mode_is_mode_witness :
    (fast_mode ⟨2, 1, 2, fun i _ l => (i + l) % 2⟩ 2).isSome = true := by
  obtain ⟨r, hr, -⟩ := fast_mode_is_mode ⟨2, 1, 2, fun i _ l => (i + l) % 2⟩ 2
    (by decide) (fun i j l _ _ _ => Nat.mod_lt _ (by decide))
  rw [hr]
  rfl

/-! ## `get_next_version_number` from `experiments/histo-seg/utils.py` -/

/-- The first maximal digit run of a character list, or `none` when no digit
occurs: `re.findall(r"[0-9]+", s)` is empty exactly when `s` has no digit,
and its first element is the first maximal digit run. -/
def firstRun : List Char → Option (List Char)
  | [] => none
  | c :: rest =>
      if c.isDigit then some (c :: rest.takeWhile Char.isDigit)
      else firstRun rest

/-- `int` on a digit string: decimal value. -/
def digitsVal (ds : List Char) : Nat :=
  ds.foldl (fun acc c => 10 * acc + (c.toNat - 48)) 0

/-- `int(re.findall(r"[0-9]+", name)[0])`, or `none` when the name contains
no digit (then the subscript `[0]` raises `IndexError`). -/
def firstNumber (name : String) : Option Nat :=
  (firstRun name.data).map digitsVal

/-- Collect a list of optional values; `none` as soon as one is missing. -/
def allSome : List (Option Nat) → Option (List Nat)
  | [] => some []
  | none :: _ => none
  | some v :: rest =>
      match allSome rest with
      | some vs => some (v :: vs)
      | none => none

/-- Python's `max` over a list of naturals (folded with identity 0). -/
def maxList (vs : List Nat) : Nat := vs.foldl Nat.max 0

/-- Embedding of `utils.get_next_version_number`.  The directory state is
`none` when `path` does not exist — then `path.mkdir()` creates it with an
empty listing — and `some entries` otherwise.  Each entry name is mapped to
the integer value of its first digit run (`IndexError`, modelled as `none`,
when a name has no digit).  Returns the next version number together with
the directory listing after the call. -/
def get_next_version_number (dir : Option (List String)) :
    Option (Nat × List String) :=
  let entries := dir.getD []
  match allSome (entries.map firstNumber) with
  | none => none
  | some existing =>
      if existing.isEmpty then some (0, entries)
      else some (maxList existing + 1, entries)

/-- The fold start is a lower bound of a `Nat.max` fold. -/
theorem le_foldl_max (vs : List Nat) :
    ∀ a : Nat, a ≤ vs.foldl Nat.max a := by
  induction vs with
  | nil => intro a; exact Nat.le_refl a
  | cons v rest ih =>
      intro a
      simp only [List.foldl_cons]
      exact le_trans (Nat.le_max_left a v) (ih (Nat.max a v))

/-- Every member of the list is bounded by the `Nat.max` fold. -/
theorem mem_le_foldl_max (vs : List Nat) :
    ∀ (a v : Nat), v ∈ vs → v ≤ vs.foldl Nat.max a := by
  induction vs with
  | nil => intro a v hv; cases hv
  | cons w rest ih =>
      intro a v hv
      simp only [List.foldl_cons]
      rcases List.mem_cons.mp hv with h | h
      · rw [h]
        exact le_trans (Nat.le_max_right a w) (le_foldl_max rest (Nat.max a w))
      · exact ih (Nat.max a w) v h

/-- A `Nat.max` fold returns its start value or a member of the list. -/
theorem foldl_max_mem (vs : List Nat) :
    ∀ a : Nat, vs.foldl Nat.max a = a ∨ vs.foldl Nat.max a ∈ vs := by
  induction vs with
  | nil => intro a; exact Or.inl rfl
  | cons w rest ih =>
      intro a
      simp only [List.foldl_cons]
      rcases ih (Nat.max a w) with h | h
      · have h2 : Nat.max a w = a ∨ Nat.max a w = w := by
          rcases Nat.le_total a w with hle | hle
          · exact Or.inr (Nat.max_eq_right hle)
          · exact Or.inl (Nat.max_eq_left hle)
        rcases h2 with h2 | h2
        · exact Or.inl (h.trans h2)
        · refine Or.inr ?_
          rw [h, h2]
          exact List.mem_cons_self w rest
      · exact Or.inr (List.mem_cons_of_mem w h)

/-- `maxList` of a nonempty list is a member of it. -/
theorem maxList_mem (vs : List Nat) (h : vs ≠ []) : maxList vs ∈ vs := by
  rcases foldl_max_mem vs 0 with h0 | hmem
  · cases vs with
    | nil => exact absurd rfl h
    | cons w rest =>
        have hw : w ≤ maxList (w :: rest) :=
          mem_le_foldl_max (w :: rest) 0 w (List.mem_cons_self w rest)
        have hw0 : w = 0 := Nat.le_zero.mp (by rw [maxList, h0] at hw; exact hw)
        rw [maxList, h0, ← hw0]
        exact List.mem_cons_self w rest
  · exact hmem

/-- When every entry has a value, `allSome` over the mapped list succeeds and
its members are exactly the values of the entries. -/
theorem allSome_map_isSome (f : String → Option Nat) :
    ∀ es : List String, (∀ e ∈ es, (f e).isSome) →
      ∃ vs, allSome (es.map f) = some vs ∧ vs.length = es.length ∧
        (∀ v ∈ vs, ∃ e ∈ es, f e = some v) ∧
        (∀ e ∈ es, ∃ v ∈ vs, f e = some v) := by
  intro es
  induction es with
  | nil =>
      intro _
      refine ⟨[], rfl, rfl, ?_, ?_⟩
      · intro v hv; cases hv
      · intro e he; cases he
  | cons e rest ih =>
      intro h
      obtain ⟨v, hv⟩ := Option.isSome_iff_exists.mp (h e (List.mem_cons_self e rest))
      obtain ⟨vs, hvs, hlen, hm1, hm2⟩ := ih (fun x hx => h x (List.mem_cons_of_mem e hx))
      refine ⟨v :: vs, ?_, ?_, ?_, ?_⟩
      · simp only [List.map_cons, allSome, hv, hvs]
      · simp [hlen]
      · intro w hw
        rcases List.mem_cons.mp hw with h1 | h1
        · exact ⟨e, List.mem_cons_self e rest, h1 ▸ hv⟩
        · obtain ⟨e2, he2, hfe2⟩ := hm1 w h1
          exact ⟨e2, List.mem_cons_of_mem e he2, hfe2⟩
      · intro e2 he2
        rcases List.mem_cons.mp he2 with h1 | h1
        · exact ⟨v, List.mem_cons_self v vs, h1 ▸ hv⟩
        · obtain ⟨w, hw, hfw⟩ := hm2 e2 h1
          exact ⟨w, List.mem_cons_of_mem v hw, hfw⟩

/-- C9: `get_next_version_number` returns 0 when the directory does not
exist (creating it empty) or has no entries, and otherwise — provided every
entry name contains a digit sequence — one greater than the largest number
found in the entry names, which is therefore strictly greater than every
existing version number. -/
theorem get_next_version_number_spec (dir : Option (List String))
    (h : ∀ es, dir = some es → ∀ e ∈ es, (firstNumber e).isSome) :
    (dir = none → get_next_version_number dir = some (0, [])) ∧
    (dir = some [] → get_next_version_number dir = some (0, [])) ∧
    (∀ es, dir = some es → es ≠ [] →
      ∃ n, get_next_version_number dir = some (n + 1, es) ∧
        (∃ e ∈ es, firstNumber e = some n) ∧
        (∀ e ∈ es, ∀ v, firstNumber e = some v → v ≤ n)) := by
  refine ⟨?_, ?_, ?_⟩
  · intro hd; rw [hd]; rfl
  · intro hd; rw [hd]; rfl
  · intro es hd hne
    subst hd
    obtain ⟨vs, hvs, hlen, hm1, hm2⟩ :=
      allSome_map_isSome firstNumber es (h es rfl)
    have hvsne : vs ≠ [] := by
      intro hnil
      rw [hnil] at hlen
      exact hne (List.eq_nil_of_length_eq_zero hlen.symm)
    refine ⟨maxList vs, ?_, ?_, ?_⟩
    · unfold get_next_version_number
      simp only [Option.getD_some, hvs]
      rw [if_neg (by simpa [List.isEmpty_iff] using hvsne)]
    · exact hm1 (maxList vs) (maxList_mem vs hvsne)
    · intro e he v hfe
      obtain ⟨w, hw, hfw⟩ := hm2 e he
      have : v = w := by
        rw [hfe] at hfw
        exact Option.some_inj.mp hfw
      rw [this]
      exact mem_le_foldl_max vs 0 w hw

/-- Witness for C9 on a concrete directory listing whose entry names each
contain a digit run. -/
theorem get_next_version_number_spec_witness :
    (get_next_version_number (some ["v2", "run10_x"])).isSome = true := by
  obtain ⟨n, hn, -, -⟩ :=
    (get_next_version_number_spec (some ["v2", "run10_x"])
      (by intro es heq; cases heq; decide)).2.2 ["v2", "run10_x"] rfl (by decide)
  rw [hn]
  rfl

/-! ## `read_image` from `experiments/histo-seg/utils.py` -/

/-- The exceptions `read_image` can raise: the `assert image_path.exists()`
failure, and the `OSError` re-raised when `PIL.Image.open` cannot open the
file. -/
inductive ReadErr where
  | assertionError
  | osError
deriving DecidableEq

/-- Embedding of `utils.read_image`.  The filesystem is an association list
from paths to raw file contents; `decode` stands for `PIL.Image.open`
followed by `np.array`, returning `none` when the image cannot be opened
(PIL raises `OSError`).  No retry of any kind is performed: each failure is
returned at once as an exception value. -/
def read_image (fs : List (String × Nat)) (decode : Nat → Option Nat)
    (image_path : String) : Except ReadErr Nat :=
  match fs.lookup image_path with
  | none => Except.error ReadErr.assertionError
  | some content =>
      match decode content with
      | none => Except.error ReadErr.osError
      | some image => Except.ok image

/-- C6: `read_image` raises (an `AssertionError`) when the path does not
exist, raises (the `OSError`) when the image cannot be opened, and returns
the decoded array otherwise; every failure is a single unrecoverable
exception, never a retried computation. -/
theorem read_image_spec (fs : List (String × Nat)) (decode : Nat → Option Nat)
    (image_path : String) :
    (fs.lookup image_path = none →
      read_image fs decode image_path = Except.error ReadErr.assertionError) ∧
    (∀ content, fs.lookup image_path = some content → decode content = none →
      read_image fs decode image_path = Except.error ReadErr.osError) ∧
    (∀ content image, fs.lookup image_path = some content →
      decode content = some image →
      read_image fs decode image_path = Except.ok image) := by
  refine ⟨?_, ?_, ?_⟩
  · intro h
    simp only [read_image, h]
  · intro content h1 h2
    simp only [read_image, h1, h2]
  · intro content image h1 h2
    simp only [read_image, h1, h2]

/-- Witness for C6 on a one-file filesystem: a missing path raises, an
undecodable file raises, a readable file returns its decoded array. -/
theorem read_image_spec_witness :
    read_image [("a.png", 5)] (fun c => if c = 5 then some 7 else none)
      "b.png" = Except.error ReadErr.assertionError ∧
    read_image [("a.png", 4)] (fun c => if c = 5 then some 7 else none)
      "a.png" = Except.error ReadErr.osError ∧
    read_image [("a.png", 5)] (fun c => if c = 5 then some 7 else none)
      "a.png" = Except.ok 7 := by
  refine ⟨?_, ?_, ?_⟩
  · exact (read_image_spec [("a.png", 5)]
      (fun c => if c = 5 then some 7 else none) "b.png").1 (by decide)
  · exact (read_image_spec [("a.png", 4)]
      (fun c => if c = 5 then some 7 else none) "a.png").2.1 4 (by decide) rfl
  · exact (read_image_spec [("a.png", 5)]
      (fun c => if c = 5 then some 7 else none) "a.png").2.2 5 7 (by decide) rfl

/-! ## `SuperpixelVisualizer.show_random_patch` from
`experiments/histo-seg/utils.py` -/

/-- `np.random.randint(lo, hi)`: raises `ValueError` (modelled as `none`)
when the range `[lo, hi)` is empty, and otherwise returns a value of the
range chosen by the random draw `rng`. -/
def np_randint (lo hi rng : Nat) : Option Nat :=
  if lo < hi then some (lo + rng % (hi - lo)) else none

/-- Embedding of `SuperpixelVisualizer.show_random_patch` for an image of
shape `w × h × _` (the code unpacks `width, height, _ = image.shape`) with
the configured `patch_size`.  The effective patch size is
`min(width, height, patch_size)`; the two random offsets are drawn with
`np.random.randint`, and on success the displayed patch
`((x_lower, x_upper), (y_lower, y_upper))` is returned. -/
def show_random_patch (patch_size w h rngx rngy : Nat) :
    Option ((Nat × Nat) × (Nat × Nat)) :=
  match np_randint 0 (w - min w (min h patch_size)) rngx with
  | none => none
  | some x_lower =>
      match np_randint 0 (h - min w (min h patch_size)) rngy with
      | none => none
      | some y_lower =>
          some ((x_lower, x_lower + min w (min h patch_size)),
            (y_lower, y_lower + min w (min h patch_size)))

/-- C10: `show_random_patch` raises a `ValueError` whenever the smaller
image dimension is at most the configured `patch_size` — the effective patch
size then equals a dimension and the random offset is drawn from an empty
range — and displays a patch exactly when both dimensions strictly exceed
`patch_size`. -/
theorem show_random_patch_spec (patch_size w h rngx rngy : Nat) :
    (min w h ≤ patch_size →
      show_random_patch patch_size w h rngx rngy = none) ∧
    (patch_size < w → patch_size < h →
      (show_random_patch patch_size w h rngx rngy).isSome = true) := by
  constructor
  · intro hle
    rcases Nat.le_total w h with hwh | hwh
    · have hwp : w ≤ patch_size := by
        rw [min_eq_left hwh] at hle
        exact hle
      have hps : min w (min h patch_size) = w :=
        min_eq_left (le_min hwh hwp)
      unfold show_random_patch np_randint
      rw [hps]
      have hnot : ¬ 0 < w - w := by omega
      rw [if_neg hnot]
    · have hhp : h ≤ patch_size := by
        rw [min_eq_right hwh] at hle
        exact hle
      have hps : min w (min h patch_size) = h := by
        rw [min_eq_left hhp]
        exact min_eq_right hwh
      unfold show_random_patch np_randint
      rw [hps]
      by_cases hw0 : 0 < w - h
      · rw [if_pos hw0]
        have hnot : ¬ 0 < h - h := by omega
        rw [if_neg hnot]
      · rw [if_neg hw0]
  · intro hw hh
    have hps : min w (min h patch_size) = patch_size := by
      rw [min_eq_right (Nat.le_of_lt hh)]
      exact min_eq_right (Nat.le_of_lt hw)
    unfold show_random_patch np_randint
    rw [hps]
    rw [if_pos (by omega : 0 < w - patch_size)]
    rw [if_pos (by omega : 0 < h - patch_size)]
    rfl

/-- Witness for C10: a 500 × 800 image with the default patch size 1000
raises, while patch size 100 displays a patch. -/
theorem show_random_patch_spec_witness :
    show_random_patch 1000 500 800 0 0 = none ∧
    (show_random_patch 100 500 800 3 4).isSome = true :=
  ⟨(show_random_patch_spec 1000 500 800 0 0).1 (by decide),
    (show_random_patch_spec 100 500 800 3 4).2 (by decide) (by decide)⟩

/-! ## Tissue mask, instance maps and graph builders

The implementations of `GaussianTissueMask`, the superpixel/nuclei
extractors and the graph builders are not under the source tree (only their
tests are); they are modelled from the specification's data model. -/

/-- An `Image` per the spec: "raster array (H×W×3), immutable once loaded".
`pix i j ch` is the channel `ch` value of the pixel at row `i`, column `j`. -/
structure RGBImage where
  height : Nat
  width : Nat
  pix : Nat → Nat → Nat → Nat

/-- A `TissueMask` value: a 2-dimensional array with its own dimensions. -/
structure TissueMask where
  height : Nat
  width : Nat
  val : Nat → Nat → Nat

/-- Grayscale intensity of a pixel (mean of the three channels). -/
def grayAt (img : RGBImage) (i j : Nat) : Nat :=
  (img.pix i j 0 + img.pix i j 1 + img.pix i j 2) / 3

/-- Mean-filter smoothing of the grayscale image over a
`kernel_size × kernel_size` window anchored at `(i, j)`: the smoothing step
of the Gaussian tissue-mask detector. -/
def smoothAt (img : RGBImage) (kernel_size i j : Nat) : Nat :=
  ((List.range kernel_size).map (fun di =>
    ((List.range kernel_size).map (fun dj =>
      grayAt img (i + di) (j + dj))).sum)).sum /
    (kernel_size * kernel_size)

/-- Modelled from the spec: `GaussianTissueMask.process` — "TissueMask:
binary array aligned to image dimensions, derived deterministically from an
Image".  The smoothed intensity is thresholded: tissue (darker than the
bright background) is 1, background is 0. -/
def GaussianTissueMask.process (kernel_size : Nat) (img : RGBImage) :
    TissueMask :=
  ⟨img.height, img.width,
    fun i j => if smoothAt img kernel_size i j < 200 then 1 else 0⟩

/-- Modelled from the spec: the pipeline's `tissue_mask` stage applies the
Gaussian tissue-mask detector (kernel size 5, as configured in the test) to
the stage input. -/
def tissue_mask_stage (img : RGBImage) : TissueMask :=
  GaussianTissueMask.process 5 img

/-- C1: the tissue mask produced by `GaussianTissueMask.process` — and by
the pipeline's `tissue_mask` stage — is a 2-dimensional array whose height
and width equal the source image's, and every entry is 0 or 1. -/
theorem tissue_mask_binary_aligned (kernel_size : Nat) (img : RGBImage) :
    ((GaussianTissueMask.process kernel_size img).height = img.height ∧
      (GaussianTissueMask.process kernel_size img).width = img.width ∧
      ∀ i j, (GaussianTissueMask.process kernel_size img).val i j = 0 ∨
        (GaussianTissueMask.process kernel_size img).val i j = 1) ∧
    ((tissue_mask_stage img).height = img.height ∧
      (tissue_mask_stage img).width = img.width ∧
      ∀ i j, (tissue_mask_stage img).val i j = 0 ∨
        (tissue_mask_stage img).val i j = 1) := by
  refine ⟨⟨rfl, rfl, ?_⟩, ⟨rfl, rfl, ?_⟩⟩
  · intro i j
    simp only [GaussianTissueMask.process]
    by_cases h : smoothAt img kernel_size i j < 200
    · rw [if_pos h]
      exact Or.inr rfl
    · rw [if_neg h]
      exact Or.inl rfl
  · intro i j
    simp only [tissue_mask_stage, GaussianTissueMask.process]
    by_cases h : smoothAt img 5 i j < 200
    · rw [if_pos h]
      exact Or.inr rfl
    · rw [if_neg h]
      exact Or.inl rfl

/-- A Superpixel/Instance map per the spec: "integer label array, one label
per pixel region", as a list of rows. -/
abbrev InstanceMap := List (List Nat)

/-- A graph per the spec: "nodes = instances (centroid, features, optional
label), edges = spatial/topological relations". -/
structure InstGraph where
  nodes : List Nat
  edges : List (Nat × Nat)

/-- Modelled from the spec: the distinct instance labels of an instance map,
in order of first appearance. -/
def instanceLabels (m : InstanceMap) : List Nat :=
  m.flatten.dedup

/-- The pixel positions carrying a given label. -/
def labelPositions (m : InstanceMap) (lbl : Nat) : List (Nat × Nat) :=
  (m.enum.map (fun p =>
    p.2.enum.filterMap (fun q =>
      if q.2 = lbl then some (p.1, q.1) else none))).flatten

/-- Modelled from the spec: the centroid of an instance — the mean pixel
position of its region. -/
def centroidOf (m : InstanceMap) (lbl : Nat) : Nat × Nat :=
  (((labelPositions m lbl).map Prod.fst).sum / (labelPositions m lbl).length,
    ((labelPositions m lbl).map Prod.snd).sum / (labelPositions m lbl).length)

/-- Modelled from the spec: the instance centroids the extractor returns —
one centroid per distinct instance label. -/
def instanceCentroids (m : InstanceMap) : List (Nat × Nat) :=
  (instanceLabels m).map (centroidOf m)

/-- Horizontally adjacent label pairs inside one row. -/
def rowAdjacencies : List Nat → List (Nat × Nat)
  | [] => []
  | [_] => []
  | x :: y :: rest => (x, y) :: rowAdjacencies (y :: rest)

/-- Vertically adjacent label pairs between consecutive rows. -/
def columnAdjacencies : InstanceMap → List (Nat × Nat)
  | [] => []
  | [_] => []
  | r1 :: r2 :: rest => r1.zip r2 ++ columnAdjacencies (r2 :: rest)

/-- Modelled from the spec: region-adjacency edges — deduplicated pairs of
distinct labels occupying neighbouring pixels. -/
def ragEdges (m : InstanceMap) : List (Nat × Nat) :=
  (((m.map rowAdjacencies).flatten ++ columnAdjacencies m).filter
    (fun p => p.1 != p.2)).dedup

/-- Modelled from the spec: `RAGGraphBuilder.process` — one node per
distinct instance label of the instance map, edges given by region
adjacency; the feature matrix decorates nodes and does not affect the
structure. -/
def RAGGraphBuilder.process (m : InstanceMap)
    (_features : List (List Nat)) : InstGraph :=
  ⟨instanceLabels m, ragEdges m⟩

/-- Squared euclidean distance between two pixel positions. -/
def sqDist (a b : Nat × Nat) : Nat :=
  (max a.1 b.1 - min a.1 b.1) ^ 2 + (max a.2 b.2 - min a.2 b.2) ^ 2

/-- Insert an `(index, distance)` pair into a distance-sorted list. -/
def insertByDist (d : Nat × Nat) : List (Nat × Nat) → List (Nat × Nat)
  | [] => [d]
  | e :: rest =>
      if d.2 ≤ e.2 then d :: e :: rest else e :: insertByDist d rest

/-- Insertion sort by distance. -/
def sortByDist : List (Nat × Nat) → List (Nat × Nat)
  | [] => []
  | e :: rest => insertByDist e (sortByDist rest)

/-- Modelled from the spec: `KNNGraphBuilder.process` — one node per
instance centroid, each node joined to its `k` nearest other centroids. -/
def KNNGraphBuilder.process (k : Nat) (centroids : List (Nat × Nat))
    (_features : List (List Nat)) : InstGraph :=
  ⟨List.range centroids.length,
    ((List.range centroids.length).map (fun i =>
      ((sortByDist ((centroids.enum.filter (fun p => p.1 != i)).map
        (fun p => (p.1, sqDist (centroids.getD i (0, 0)) p.2)))).take k).map
        (fun p => (i, p.1)))).flatten⟩

/-- C3: the graph returned by a graph builder (`RAGGraphBuilder.process`, or
`KNNGraphBuilder.process` on the extractor's centroids) has exactly as many
nodes as there are distinct instance labels in the instance map. -/
theorem graph_nodes_eq_distinct_labels (m : InstanceMap)
    (features : List (List Nat)) (k : Nat) :
    (RAGGraphBuilder.process m features).nodes.length =
      m.flatten.toFinset.card ∧
    (KNNGraphBuilder.process k (instanceCentroids m) features).nodes.length =
      m.flatten.toFinset.card := by
  have hcard : m.flatten.toFinset.card = m.flatten.dedup.length :=
    List.card_toFinset m.flatten
  constructor
  · rw [hcard]
    rfl
  · rw [hcard]
    simp [KNNGraphBuilder.process, instanceCentroids, instanceLabels]

/-- C4: with the random seed fixed, every modelled preprocessing stage is a
pure function of its declared inputs: two runs on equal inputs return equal
outputs, and in particular the built graphs' node and edge counts are
identical across runs under both region-adjacency and k-nearest-neighbor
construction. -/
theorem preprocessing_deterministic (kernel_size : Nat)
    (img img2 : RGBImage) (m m2 : InstanceMap)
    (f f2 : List (List Nat)) (k : Nat)
    (himg : img = img2) (hm : m = m2) (hf : f = f2) :
    GaussianTissueMask.process kernel_size img =
      GaussianTissueMask.process kernel_size img2 ∧
    RAGGraphBuilder.process m f = RAGGraphBuilder.process m2 f2 ∧
    KNNGraphBuilder.process k (instanceCentroids m) f =
      KNNGraphBuilder.process k (instanceCentroids m2) f2 ∧
    (RAGGraphBuilder.process m f).nodes.length =
      (RAGGraphBuilder.process m2 f2).nodes.length ∧
    (RAGGraphBuilder.process m f).edges.length =
      (RAGGraphBuilder.process m2 f2).edges.length ∧
    (KNNGraphBuilder.process k (instanceCentroids m) f).nodes.length =
      (KNNGraphBuilder.process k (instanceCentroids m2) f2).nodes.length ∧
    (KNNGraphBuilder.process k (instanceCentroids m) f).edges.length =
      (KNNGraphBuilder.process k (instanceCentroids m2) f2).edges.length := by
  subst himg
  subst hm
  subst hf
  exact ⟨rfl, rfl, rfl, rfl, rfl, rfl, rfl⟩

/-- Witness for C4 on a concrete instance map: the region-adjacency node
count of two identical runs coincides. -/
theorem preprocessing_deterministic_witness :
    (RAGGraphBuilder.process [[0, 1], [1, 1]] []).nodes.length =
      (RAGGraphBuilder.process [[0, 1], [1, 1]] []).nodes.length :=
  (preprocessing_deterministic 5 ⟨1, 1, fun _ _ _ => 0⟩
    ⟨1, 1, fun _ _ _ => 0⟩ [[0, 1], [1, 1]] [[0, 1], [1, 1]] [] [] 2
    rfl rfl rfl).2.2.2.1
